import Mathlib

/-!
Verification model of `packages/headless/src/graphql/apolloClient.ts`.

The file shallowly embeds the module's data and control flow:

* `JValue` models JavaScript/JSON values as they occur in Apollo's
  normalized cache objects and Next.js page-props structures
  (objects are ordered association lists of string keys, which is the
  observable shape of a JS object literal).
* `deepmerge` models the call `merge(target, source, {arrayMerge: overwriteMerge})`
  made by `initializeApollo`, following the semantics of the `deepmerge`
  npm library (v4): on an array/non-array type mismatch the source value is
  returned; on two arrays the custom `overwriteMerge` returns the source
  array; otherwise the two values are merged key by key, recursing when the
  source field value is mergeable (a plain object or array) and the target
  owns the key, and taking the source field value otherwise.  The library's
  prototype-pollution guard (`propertyIsUnsafe`, which skips the keys
  `__proto__`/`constructor`/`prototype`) is not modelled; no claim involves
  those keys.
* `initializeApollo`, `addApolloState` and `useApollo` model the exported
  functions, with the module-level mutable `apolloClient` variable and the
  fresh-instance allocation made explicit in a `Sys` state record, and the
  `typeof window === 'undefined'` branch made explicit as an `ExecCtx`
  parameter.
* `moduleInit` models the module-load check of lines 13-19, including the
  evaluation of the bare identifier `window`.
-/

/-- A JavaScript value as it can appear in a normalized Apollo cache object,
a hydration snapshot, or a page-props structure.  Objects keep their fields
as an ordered association list, mirroring JS object key order. -/
inductive JValue where
  | jnull : JValue
  | undef : JValue
  | jbool : Bool → JValue
  | num : Int → JValue
  | str : String → JValue
  | arr : List JValue → JValue
  | obj : List (String × JValue) → JValue

/-- The fields of a JS object. -/
abbrev JFields := List (String × JValue)

/-- JavaScript truthiness of a `JValue` (`if (x)`): `null`, `undefined`,
`false`, `0` and `""` are falsy; every array and every object (including
`{}`) is truthy. -/
def truthy : JValue → Bool
  | .jnull => false
  | .undef => false
  | .jbool b => b
  | .num n => n != 0
  | .str s => s != ""
  | .arr _ => true
  | .obj _ => true

/-- The deepmerge library's `isMergeableObject` restricted to our data model:
plain objects and arrays are mergeable, primitives are not. -/
def isMergeable : JValue → Bool
  | .obj _ => true
  | .arr _ => true
  | _ => false

/-- Property read on a JS object: the value of the first binding of `k`
(a JS object holds each key once, so the first binding is the binding). -/
def getVal : JFields → String → Option JValue
  | [], _ => none
  | (k2, v) :: rest, k => if k2 = k then some v else getVal rest k

/-- Property write `o[k] = v` on a JS object: an existing key keeps its
position and gets the new value, a new key is appended at the end. -/
def setVal : JFields → String → JValue → JFields
  | [], k, v => [(k, v)]
  | (k2, v2) :: rest, k, v =>
      if k2 = k then (k, v) :: rest else (k2, v2) :: setVal rest k v

/-- `key in Object(o)` for our keys: whether the object owns the key. -/
def hasKey (fs : JFields) (k : String) : Bool :=
  (getVal fs k).isSome

/-- deepmerge's `propertyIsOnObject(target, key)` followed by the read
`target[key]`: only objects own our (data) keys. -/
def getProp : JValue → String → Option JValue
  | .obj fs, k => getVal fs k
  | _, _ => none

/-- The fields a value contributes when it stands as the `target` of
deepmerge's `mergeObject`: `isMergeableObject(target)` admits only objects
there (the target is never an array at that point), so a primitive target
contributes nothing. -/
def destOf : JValue → JFields
  | .obj fs => fs
  | _ => []

/-- The object fields of a value, `[]` for non-objects. -/
def asFields : JValue → JFields
  | .obj fs => fs
  | _ => []

/-- The custom `arrayMerge` passed by `initializeApollo`
(line 72: `(target, source, options) => source`). -/
def overwriteMerge (target source : List JValue) : List JValue :=
  source

mutual
/-- The call `merge(target, source, {arrayMerge: overwriteMerge})` of the
deepmerge library: if exactly one side is an array the (cloned) source is
returned; two arrays go through `overwriteMerge`; otherwise `mergeObject`
runs over the source's keys (none when the source is a primitive), the
destination starting as the target's own fields (cloning is identity in
this pure model). -/
def deepmerge (target source : JValue) : JValue :=
  match target, source with
  | .arr ts, .arr ss => .arr (overwriteMerge ts ss)
  | .arr _, s => s
  | t, .arr ss => .arr ss
  | t, .obj fs => .obj (mergeFields t (destOf t) fs)
  | t, _ => .obj (destOf t)
termination_by sizeOf source

/-- deepmerge's `mergeObject` loop over the source keys: the destination
starts as the target's own fields; a source field whose key the target owns
and whose value is mergeable is merged recursively, any other source field
overwrites the destination entry. -/
def mergeFields (target : JValue) (dest : JFields) (src : JFields) : JFields :=
  match src with
  | [] => dest
  | (k, sv) :: rest =>
      let newVal :=
        match getProp target k with
        | some tv => if isMergeable sv then deepmerge tv sv else sv
        | none => sv
      mergeFields target (setVal dest k newVal) rest
termination_by sizeOf src
end

/-- The recursive merge of a single source field, as performed inside
`mergeFields` (its `newVal`). -/
def mergeVal (target : JValue) (k : String) (sv : JValue) : JValue :=
  match getProp target k with
  | some tv => if isMergeable sv then deepmerge tv sv else sv
  | none => sv

/-- Whether `k` is absent from the keys of `fs`. -/
def keyFree (k : String) : JFields → Bool
  | [] => true
  | (k2, _) :: rest => k2 != k && keyFree k rest

/-- Whether the keys of `fs` are pairwise distinct — true of the field list
of any actual JS object. -/
def nodupKeys : JFields → Bool
  | [] => true
  | (k, _) :: rest => keyFree k rest && nodupKeys rest

mutual
/-- Well-formedness of a `JValue` as the image of a JavaScript value:
every object in it has pairwise-distinct keys. -/
def wfB : JValue → Bool
  | .arr es => wfList es
  | .obj fs => nodupKeys fs && wfFields fs
  | _ => true

/-- All values in a list are well-formed. -/
def wfList : List JValue → Bool
  | [] => true
  | v :: rest => wfB v && wfList rest

/-- All field values are well-formed. -/
def wfFields : JFields → Bool
  | [] => true
  | (_, v) :: rest => wfB v && wfFields rest
end

/-- Whether a value is JavaScript `undefined` (used to model default
parameter substitution: a call with an `undefined` argument takes the
declared default). -/
def isUndef : JValue → Bool
  | .undef => true
  | _ => false

/-- The execution context: `server` models `typeof window === 'undefined'`
being true (Node, SSG/SSR), `client` models running in a browser. -/
inductive ExecCtx where
  | server : ExecCtx
  | client : ExecCtx

/-- An `ApolloClient<NormalizedCacheObject>` instance as far as this module
observes it: an identity (so that "same instance" and "new instance" are
expressible) and the contents of its `InMemoryCache`
(`extract()` returns `cache`; `cache.restore(d)` replaces `cache` by `d`).
`createApolloClient` always starts from `new InMemoryCache()`, i.e. `[]`. -/
structure Client where
  id : Nat
  cache : JFields

/-- The module-level mutable state: the `let apolloClient` variable of line
11 (`none` while unassigned) and a supply of fresh instance identities. -/
structure Sys where
  memo : Option Client
  nextId : Nat

/-- `createApolloClient()` (lines 24-32): a brand-new client with an empty
`InMemoryCache`, bound to `API_URL`.  The model records the fresh identity. -/
def createApolloClient (s : Sys) : Client :=
  { id := s.nextId, cache := [] }

/-- The cache contents of the module's memoized client, `[]` when no client
is memoized (a freshly created client also starts at `[]`). -/
def currentCache (s : Sys) : JFields :=
  match s.memo with
  | some c => c.cache
  | none => []

/-- `initializeApollo(initialState = null)` (lines 63-90).

* `arg` is the JavaScript argument value; passing `undefined` (also what a
  missing argument is) takes the default `null`.
* `_apolloClient = apolloClient ?? createApolloClient()`.
* If `initialState` is truthy, the existing cache is extracted and
  `merge(initialState, existingCache, {arrayMerge: overwriteMerge})` is
  restored into the client's cache; `cache.restore` mutates the instance in
  place, so when the memoized client was reused the memo sees the merged
  cache as well.
* On the server (`typeof window === 'undefined'`) the client is returned
  without ever assigning the module-level variable; in the browser the
  variable is assigned on first use. -/
def initializeApollo (ctx : ExecCtx) (arg : JValue) (s : Sys) : Client × Sys :=
  let initialState := if isUndef arg then JValue.jnull else arg
  let base : Client :=
    match s.memo with
    | some c => c
    | none => createApolloClient s
  let nid : Nat :=
    match s.memo with
    | some _ => s.nextId
    | none => s.nextId + 1
  let hydrated : Client :=
    if truthy initialState then
      { base with cache := asFields (deepmerge initialState (.obj base.cache)) }
    else base
  let memo1 : Option Client :=
    match s.memo with
    | some _ => some hydrated
    | none => none
  match ctx with
  | .server => (hydrated, { memo := memo1, nextId := nid })
  | .client =>
      match memo1 with
      | some _ => (hydrated, { memo := memo1, nextId := nid })
      | none => (hydrated, { memo := some hydrated, nextId := nid })

/-- A sequence of `initializeApollo` calls, tracking only the module state. -/
def runCalls (ctx : ExecCtx) (snaps : List JValue) (s : Sys) : Sys :=
  match snaps with
  | [] => s
  | x :: rest => runCalls ctx rest (initializeApollo ctx x s).2

/-- `export const APOLLO_STATE_PROP_NAME = '__APOLLO_STATE__'` (line 8). -/
def APOLLO_STATE_PROP_NAME : String := "__APOLLO_STATE__"

/-- `addApolloState(client, pageProps)` (lines 110-116): if
`pageProps?.props` is truthy, `pageProps.props[APOLLO_STATE_PROP_NAME] =
client.cache.extract()` mutates the nested object in place and the same
structure is returned; otherwise the structure is returned untouched.
The page-props structures this module receives are JS objects whose
`props` field, when truthy, is itself an object (the property assignment
is only meaningful there). -/
def addApolloState (client : Client) (pageProps : JFields) : JFields :=
  match getVal pageProps "props" with
  | some pv =>
      if truthy pv then
        setVal pageProps "props"
          (.obj (setVal (asFields pv) APOLLO_STATE_PROP_NAME (.obj client.cache)))
      else pageProps
  | none => pageProps

/-- `useApollo(pageProps)` (lines 123-127): reads
`pageProps[APOLLO_STATE_PROP_NAME]` from the top level (an absent property
reads as `undefined`) and passes it to `initializeApollo`.  The `useMemo`
wrapper only avoids recomputation and is semantically the direct call. -/
def useApollo (ctx : ExecCtx) (pageProps : JFields) (s : Sys) : Client × Sys :=
  let state := (getVal pageProps APOLLO_STATE_PROP_NAME).getD JValue.undef
  initializeApollo ctx state s

/-- JavaScript `a || b` on optional environment strings: an unset variable
reads as `undefined` (falsy) and `''` is falsy, so the right operand is
taken in either case.  Models line 10. -/
def jsOr (a b : Option String) : Option String :=
  match a with
  | some v => if v = "" then b else some v
  | none => b

/-- Whether `!API_URL` holds: the value is `undefined` or `''`. -/
def apiUrlFalsy : Option String → Bool
  | none => true
  | some v => v = ""

/-- Evaluating the bare identifier `window` (line 14): in a browser it
yields the global `window` object, which is truthy; in Node the identifier
is unbound and evaluation throws `ReferenceError: window is not defined`. -/
def evalWindow : ExecCtx → Except String Bool
  | .client => .ok true
  | .server => .error "window is not defined"

/-- The message of line 15. -/
def clientEnvErrorMsg : String :=
  "NEXT_PUBLIC_WORDPRESS_API_URL environment variable is not set. Please set it to your WPGraphQL endpoint if you wish to use client-side requests."

/-- The message of line 17. -/
def serverEnvErrorMsg : String :=
  "WORDPRESS_API_URL and NEXT_PUBLIC_WORDPRESS_API_URL environment variables are not set. Please set WORDPRESS_API_URL (or NEXT_PUBLIC_WORDPRESS_API_URL if you wish to also use client-side requests) to your WPGraphQL endpoint."

/-- How loading the module can end: normally, with a thrown configuration
`Error(msg)`, or with a thrown `ReferenceError` from evaluating an unbound
identifier. -/
inductive InitOutcome where
  | ok : InitOutcome
  | configError : String → InitOutcome
  | refError : String → InitOutcome

/-- Lines 10-19 at module load: compute
`API_URL = process.env.NEXT_PUBLIC_WORDPRESS_API_URL || process.env.WORDPRESS_API_URL`;
when it is falsy, evaluate `if (window)` — whose bare `window` itself
throws in Node — and otherwise throw the context's configuration error. -/
def moduleInit (ctx : ExecCtx) (nextPublicUrl wordpressUrl : Option String) : InitOutcome :=
  let apiUrl := jsOr nextPublicUrl wordpressUrl
  if apiUrlFalsy apiUrl then
    match evalWindow ctx with
    | .error e => .refError e
    | .ok w => if w then .configError clientEnvErrorMsg else .configError serverEnvErrorMsg
  else .ok

/-! ### Association-list lemmas -/

theorem getVal_setVal (l : JFields) (k k2 : String) (v : JValue) :
    getVal (setVal l k v) k2 = if k2 = k then some v else getVal l k2 := by
  induction l with
  | nil =>
      simp only [setVal, getVal]
      by_cases h : k2 = k
      · simp [h]
      · simp [h, Ne.symm h]
  | cons p rest ih =>
      obtain ⟨k1, v1⟩ := p
      simp only [setVal]
      by_cases h1 : k1 = k
      · subst h1
        simp only [if_pos rfl, getVal]
        by_cases h2 : k2 = k1
        · simp [h2]
        · simp [h2, Ne.symm h2]
      · simp only [if_neg h1, getVal]
        by_cases h2 : k1 = k2
        · subst h2
          simp [Ne.symm h1, fun e : k1 = k => h1 e]
        · simp [h2, ih]

theorem setVal_self (l : JFields) (k : String) (v : JValue)
    (h : getVal l k = some v) : setVal l k v = l := by
  induction l with
  | nil => simp [getVal] at h
  | cons p rest ih =>
      obtain ⟨k1, v1⟩ := p
      by_cases h1 : k1 = k
      · subst h1
        simp [getVal] at h
        simp [setVal, h]
      · simp [getVal, h1] at h
        simp [setVal, h1, ih h]

theorem getVal_mem {l : JFields} {k : String} {v : JValue}
    (h : getVal l k = some v) : (k, v) ∈ l := by
  induction l with
  | nil => simp [getVal] at h
  | cons p rest ih =>
      obtain ⟨k1, v1⟩ := p
      by_cases h1 : k1 = k
      · subst h1
        simp [getVal] at h
        simp [h]
      · simp [getVal, h1] at h
        simp [ih h]

theorem keyFree_iff (k : String) (l : JFields) :
    keyFree k l = true ↔ ∀ p ∈ l, p.1 ≠ k := by
  induction l with
  | nil => simp [keyFree]
  | cons p rest ih =>
      obtain ⟨k1, v1⟩ := p
      simp [keyFree, ih]

theorem getVal_none_of_keyFree {k : String} {l : JFields}
    (h : keyFree k l = true) : getVal l k = none := by
  induction l with
  | nil => simp [getVal]
  | cons p rest ih =>
      obtain ⟨k1, v1⟩ := p
      simp [keyFree] at h
      simp [getVal, h.1, ih h.2]

theorem keyFree_of_getVal_none {k : String} {l : JFields}
    (h : getVal l k = none) : keyFree k l = true := by
  induction l with
  | nil => simp [keyFree]
  | cons p rest ih =>
      obtain ⟨k1, v1⟩ := p
      by_cases h1 : k1 = k
      · simp [getVal, h1] at h
      · simp [getVal, h1] at h
        simp [keyFree, h1, ih h]

theorem getVal_of_mem_nodup {l : JFields} {k : String} {v : JValue}
    (hnd : nodupKeys l = true) (hm : (k, v) ∈ l) : getVal l k = some v := by
  induction l with
  | nil => simp at hm
  | cons p rest ih =>
      obtain ⟨k1, v1⟩ := p
      simp only [nodupKeys, Bool.and_eq_true] at hnd
      rcases List.mem_cons.mp hm with h | h
      · simp only [Prod.mk.injEq] at h
        obtain ⟨e1, e2⟩ := h
        subst e1; subst e2
        simp [getVal]
      · have hk : (k, v).1 ≠ k1 := (keyFree_iff k1 rest).mp hnd.1 _ h
        simp only [getVal, if_neg (Ne.symm hk)]
        exact ih hnd.2 h

theorem keyFree_setVal {l : JFields} {k1 k : String} (v : JValue)
    (hne : k1 ≠ k) (h : keyFree k1 l = true) :
    keyFree k1 (setVal l k v) = true := by
  induction l with
  | nil => simp [setVal, keyFree, Ne.symm hne]
  | cons p rest ih =>
      obtain ⟨k2, v2⟩ := p
      simp only [keyFree, Bool.and_eq_true, bne_iff_ne, ne_eq] at h
      by_cases h2 : k2 = k
      · subst h2
        simp [setVal, keyFree, Ne.symm hne, h.2]
      · simp only [setVal, if_neg h2, keyFree, Bool.and_eq_true, bne_iff_ne, ne_eq]
        exact ⟨h.1, ih h.2⟩

theorem nodupKeys_setVal (l : JFields) (k : String) (v : JValue)
    (h : nodupKeys l = true) : nodupKeys (setVal l k v) = true := by
  induction l with
  | nil => simp [setVal, nodupKeys, keyFree]
  | cons p rest ih =>
      obtain ⟨k1, v1⟩ := p
      simp only [nodupKeys, Bool.and_eq_true] at h
      by_cases h1 : k1 = k
      · subst h1
        simp only [setVal, if_pos rfl, nodupKeys, Bool.and_eq_true]
        exact ⟨h.1, h.2⟩
      · simp only [setVal, if_neg h1, nodupKeys, Bool.and_eq_true]
        exact ⟨keyFree_setVal v h1 h.1, ih h.2⟩

theorem setVal_of_keyFree {l : JFields} {k : String} (v : JValue)
    (h : keyFree k l = true) : setVal l k v = l ++ [(k, v)] := by
  induction l with
  | nil => simp [setVal]
  | cons p rest ih =>
      obtain ⟨k1, v1⟩ := p
      simp only [keyFree, Bool.and_eq_true, bne_iff_ne, ne_eq] at h
      simp [setVal, h.1, ih h.2]

theorem getVal_append_left {a : JFields} (b : JFields) {k : String} {v : JValue}
    (h : getVal a k = some v) : getVal (a ++ b) k = some v := by
  induction a with
  | nil => simp [getVal] at h
  | cons p rest ih =>
      obtain ⟨k1, v1⟩ := p
      by_cases h1 : k1 = k
      · subst h1
        simp [getVal] at h
        simp [getVal, h]
      · simp [getVal, h1] at h ⊢
        exact ih h

theorem getVal_append_right {a : JFields} (b : JFields) {k : String}
    (h : getVal a k = none) : getVal (a ++ b) k = getVal b k := by
  induction a with
  | nil => simp
  | cons p rest ih =>
      obtain ⟨k1, v1⟩ := p
      by_cases h1 : k1 = k
      · simp [getVal, h1] at h
      · simp [getVal, h1] at h ⊢
        exact ih h

theorem getVal_mapSnd (f : String → JValue → JValue) (l : JFields) (k : String) :
    getVal (l.map (fun p => (p.1, f p.1 p.2))) k = (getVal l k).map (f k) := by
  induction l with
  | nil => simp [getVal]
  | cons p rest ih =>
      obtain ⟨k1, v1⟩ := p
      by_cases h1 : k1 = k
      · subst h1
        simp [getVal]
      · simp [getVal, h1, ih]

theorem keyFree_mapSnd (f : String → JValue → JValue) (l : JFields) (k : String) :
    keyFree k (l.map (fun p => (p.1, f p.1 p.2))) = keyFree k l := by
  induction l with
  | nil => simp
  | cons p rest ih =>
      obtain ⟨k1, v1⟩ := p
      simp [keyFree, ih]

theorem keyFree_append (k : String) (a b : JFields) :
    keyFree k (a ++ b) = (keyFree k a && keyFree k b) := by
  induction a with
  | nil => simp [keyFree]
  | cons p rest ih =>
      obtain ⟨k1, v1⟩ := p
      simp [keyFree, ih, Bool.and_assoc]

theorem nodupKeys_append {a b : JFields}
    (ha : nodupKeys a = true) (hb : nodupKeys b = true)
    (hf : ∀ p ∈ b, keyFree p.1 a = true) : nodupKeys (a ++ b) = true := by
  induction a with
  | nil => simpa using hb
  | cons p rest ih =>
      obtain ⟨k1, v1⟩ := p
      simp only [nodupKeys, Bool.and_eq_true] at ha
      have hfr : ∀ q ∈ b, keyFree q.1 rest = true := by
        intro q hq
        have h2 := hf q hq
        simp only [keyFree, Bool.and_eq_true] at h2
        exact h2.2
      have h1 : keyFree k1 (rest ++ b) = true := by
        rw [keyFree_append]
        simp only [Bool.and_eq_true]
        refine ⟨ha.1, ?_⟩
        rw [keyFree_iff]
        intro q hq
        have h2 := hf q hq
        simp only [keyFree, Bool.and_eq_true, bne_iff_ne, ne_eq] at h2
        exact fun e => h2.1 e.symm
      simp only [List.cons_append, nodupKeys, Bool.and_eq_true]
      exact ⟨h1, ih ha.2 hfr⟩

/-! ### deepmerge case lemmas -/

/-- Whether a value is a JS array (`Array.isArray`). -/
def isArr : JValue → Bool
  | .arr _ => true
  | _ => false

theorem deepmerge_src_arr (t : JValue) (es : List JValue) :
    deepmerge t (.arr es) = .arr es := by
  cases t <;> simp [deepmerge, overwriteMerge]

theorem deepmerge_arr_tgt {s : JValue} (ts : List JValue) (h : isArr s = false) :
    deepmerge (.arr ts) s = s := by
  cases s <;> simp [deepmerge, isArr, overwriteMerge] at h ⊢

theorem deepmerge_obj_src {t : JValue} (fs : JFields) (h : isArr t = false) :
    deepmerge t (.obj fs) = .obj (mergeFields t (destOf t) fs) := by
  cases t <;> simp [deepmerge, isArr] at h ⊢

theorem deepmerge_obj_shape (t : JValue) (fs : JFields) :
    JValue.obj (asFields (deepmerge t (.obj fs))) = deepmerge t (.obj fs) := by
  cases t <;> simp [deepmerge, asFields]

theorem getProp_destOf (t : JValue) (k : String) :
    getProp t k = getVal (destOf t) k := by
  cases t <;> simp [getProp, destOf, getVal]

theorem mergeVal_of_absent {t : JValue} {k : String} (x : JValue)
    (h : getProp t k = none) : mergeVal t k x = x := by
  simp [mergeVal, h]

theorem mergeFields_cons (t : JValue) (T : JFields) (k : String) (sv : JValue)
    (rest : JFields) :
    mergeFields t T ((k, sv) :: rest) =
      mergeFields t (setVal T k (mergeVal t k sv)) rest := by
  rw [mergeFields, mergeVal]

theorem getVal_mergeFields (t : JValue) (T F : JFields) (k : String)
    (hnd : nodupKeys F = true) :
    getVal (mergeFields t T F) k =
      match getVal F k with
      | some sv => some (mergeVal t k sv)
      | none => getVal T k := by
  induction F generalizing T with
  | nil => simp [mergeFields, getVal]
  | cons p rest ih =>
      obtain ⟨k1, sv⟩ := p
      simp only [nodupKeys, Bool.and_eq_true] at hnd
      rw [mergeFields_cons, ih _ hnd.2]
      by_cases h1 : k1 = k
      · subst h1
        have hr : getVal rest k1 = none := getVal_none_of_keyFree hnd.1
        simp [getVal, hr, getVal_setVal]
      · cases hr : getVal rest k with
        | some sv2 => simp [getVal, h1, hr]
        | none => simp [getVal, h1, hr, getVal_setVal, Ne.symm h1]

/-! ### A non-accumulating description of mergeObject -/

/-- Helper congruence: mapping two functions that agree on a list. -/
theorem map_congr_on {α β : Type} {l : List α} {f g : α → β}
    (h : ∀ a ∈ l, f a = g a) : l.map f = l.map g := by
  induction l with
  | nil => rfl
  | cons a rest ih =>
      simp only [List.map_cons, h a (List.mem_cons_self a rest)]
      rw [ih fun b hb => h b (List.mem_cons_of_mem a hb)]

/-- Helper congruence: filtering by two predicates that agree on a list. -/
theorem filter_congr_on {α : Type} {l : List α} {p q : α → Bool}
    (h : ∀ a ∈ l, p a = q a) : l.filter p = l.filter q := by
  induction l with
  | nil => rfl
  | cons a rest ih =>
      have ha := h a (List.mem_cons_self a rest)
      have ht := ih fun b hb => h b (List.mem_cons_of_mem a hb)
      by_cases hp : p a = true
      · simp [List.filter_cons, hp, ha ▸ hp, ht]
      · have hp2 : p a = false := Bool.eq_false_iff.mpr hp
        simp [List.filter_cons, hp2, ha ▸ hp2, ht]

theorem hasKey_false_iff (T : JFields) (k : String) :
    hasKey T k = false ↔ getVal T k = none := by
  cases h : getVal T k <;> simp [hasKey, h]

theorem hasKey_true_iff (T : JFields) (k : String) :
    hasKey T k = true ↔ ∃ v, getVal T k = some v := by
  cases h : getVal T k <;> simp [hasKey, h]

/-- The value a destination field of `mergeObject` ends up with, as a
function of the source fields `F`: a key the source owns is (recursively)
merged, any other keeps its value. -/
def updFun (t : JValue) (F : JFields) (k : String) (v : JValue) : JValue :=
  match getVal F k with
  | some sv => mergeVal t k sv
  | none => v

/-- `updFun` applied to a whole entry. -/
def updSrc (t : JValue) (F : JFields) (p : String × JValue) : String × JValue :=
  (p.1, updFun t F p.1 p.2)

/-- The source fields whose keys the destination does not own, each merged;
they are appended after the destination's fields, in source order. -/
def newEntries (t : JValue) (T F : JFields) : JFields :=
  (F.filter (fun p => !(hasKey T p.1))).map (fun p => (p.1, mergeVal t p.1 p.2))

theorem getVal_append_single_ne {T : JFields} {k q : String} (mv : JValue)
    (h : q ≠ k) : getVal (T ++ [(k, mv)]) q = getVal T q := by
  cases hq : getVal T q with
  | some v => exact getVal_append_left _ hq
  | none => rw [getVal_append_right _ hq]; simp [getVal, Ne.symm h]

theorem map_updSrc_setVal (t : JValue) {T : JFields} (rest : JFields)
    {k : String} (sv : JValue)
    (hT : nodupKeys T = true) (hk : hasKey T k = true)
    (hr : getVal rest k = none) :
    (setVal T k (mergeVal t k sv)).map (updSrc t rest) =
      T.map (updSrc t ((k, sv) :: rest)) := by
  induction T with
  | nil => simp [hasKey, getVal] at hk
  | cons p tail ih =>
      obtain ⟨k1, v1⟩ := p
      simp only [nodupKeys, Bool.and_eq_true] at hT
      by_cases h1 : k1 = k
      · subst h1
        have hsv : setVal ((k1, v1) :: tail) k1 (mergeVal t k1 sv) =
            (k1, mergeVal t k1 sv) :: tail := by simp [setVal]
        rw [hsv, List.map_cons, List.map_cons]
        have hhead : updSrc t rest (k1, mergeVal t k1 sv) =
            updSrc t ((k1, sv) :: rest) (k1, v1) := by
          simp [updSrc, updFun, hr, getVal]
        rw [hhead]
        have htail : tail.map (updSrc t rest) =
            tail.map (updSrc t ((k1, sv) :: rest)) := by
          apply map_congr_on
          intro q hq
          have hq1 : q.1 ≠ k1 := (keyFree_iff k1 tail).mp hT.1 q hq
          simp [updSrc, updFun, getVal, Ne.symm hq1]
        rw [htail]
      · simp only [setVal, if_neg h1, List.map_cons]
        have hhead : updSrc t rest (k1, v1) = updSrc t ((k, sv) :: rest) (k1, v1) := by
          simp [updSrc, updFun, getVal, Ne.symm h1]
        have hk2 : hasKey tail k = true := by
          simp only [hasKey, getVal, if_neg h1] at hk
          exact hk
        rw [hhead, ih hT.2 hk2]

theorem newEntries_setVal_hasKey (t : JValue) {T : JFields} {rest : JFields}
    {k : String} (sv mv : JValue)
    (hk : hasKey T k = true) (hfr : keyFree k rest = true) :
    newEntries t (setVal T k mv) rest = newEntries t T ((k, sv) :: rest) := by
  unfold newEntries
  have hfilter : ((k, sv) :: rest).filter (fun p => !(hasKey T p.1)) =
      rest.filter (fun p => !(hasKey T p.1)) := by
    simp [List.filter_cons, hk]
  rw [hfilter]
  have hsame : rest.filter (fun p => !(hasKey (setVal T k mv) p.1)) =
      rest.filter (fun p => !(hasKey T p.1)) := by
    apply filter_congr_on
    intro q hq
    have hq1 : q.1 ≠ k := (keyFree_iff k rest).mp hfr q hq
    simp [hasKey, getVal_setVal, hq1]
  rw [hsame]

theorem mergeFields_eq_alt (t : JValue) (T F : JFields)
    (hT : nodupKeys T = true) (hF : nodupKeys F = true) :
    mergeFields t T F = T.map (updSrc t F) ++ newEntries t T F := by
  induction F generalizing T with
  | nil =>
      simp only [mergeFields, newEntries, List.filter_nil, List.map_nil,
        List.append_nil]
      have hid : T.map (updSrc t []) = T.map id :=
        map_congr_on fun q hq => by simp [updSrc, updFun, getVal]
      rw [hid, List.map_id]
  | cons p rest ih =>
      obtain ⟨k, sv⟩ := p
      simp only [nodupKeys, Bool.and_eq_true] at hF
      rw [mergeFields_cons,
        ih (setVal T k (mergeVal t k sv)) (nodupKeys_setVal T k _ hT) hF.2]
      by_cases hk : hasKey T k = true
      · rw [map_updSrc_setVal t rest sv hT hk (getVal_none_of_keyFree hF.1),
          newEntries_setVal_hasKey t sv (mergeVal t k sv) hk hF.1]
      · have hk2 : getVal T k = none := (hasKey_false_iff T k).mp (Bool.eq_false_iff.mpr hk)
        have hkf : keyFree k T = true := keyFree_of_getVal_none hk2
        rw [setVal_of_keyFree _ hkf, List.map_append]
        have hmapT : T.map (updSrc t rest) = T.map (updSrc t ((k, sv) :: rest)) := by
          apply map_congr_on
          intro q hq
          have hq1 : q.1 ≠ k := (keyFree_iff k T).mp hkf q hq
          simp [updSrc, updFun, getVal, Ne.symm hq1]
        have hone : ([(k, mergeVal t k sv)] : JFields).map (updSrc t rest) =
            [(k, mergeVal t k sv)] := by
          simp [updSrc, updFun, getVal_none_of_keyFree hF.1]
        have hnew : newEntries t (T ++ [(k, mergeVal t k sv)]) rest =
            newEntries t T rest := by
          unfold newEntries
          have : rest.filter (fun p => !(hasKey (T ++ [(k, mergeVal t k sv)]) p.1)) =
              rest.filter (fun p => !(hasKey T p.1)) := by
            apply filter_congr_on
            intro q hq
            have hq1 : q.1 ≠ k := (keyFree_iff k rest).mp hF.1 q hq
            simp [hasKey, getVal_append_single_ne _ hq1]
          rw [this]
        have hrhs : newEntries t T ((k, sv) :: rest) =
            (k, mergeVal t k sv) :: newEntries t T rest := by
          unfold newEntries
          simp [List.filter_cons, Bool.eq_false_iff.mpr hk]
        rw [hmapT, hone, hnew, hrhs]
        simp

/-! ### Well-formedness and size transport -/

theorem wfB_obj_parts {fs : JFields} (h : wfB (.obj fs) = true) :
    nodupKeys fs = true ∧ wfFields fs = true := by
  simp only [wfB, Bool.and_eq_true] at h
  exact h

theorem wfFields_mem {fs : JFields} {k : String} {v : JValue}
    (h : wfFields fs = true) (hm : (k, v) ∈ fs) : wfB v = true := by
  induction fs with
  | nil => simp at hm
  | cons p rest ih =>
      obtain ⟨k1, v1⟩ := p
      simp only [wfFields, Bool.and_eq_true] at h
      rcases List.mem_cons.mp hm with he | he
      · simp only [Prod.mk.injEq] at he
        exact he.2 ▸ h.1
      · exact ih h.2 he

theorem nodupKeys_destOf {t : JValue} (h : wfB t = true) :
    nodupKeys (destOf t) = true := by
  cases t <;> simp_all [destOf, nodupKeys, wfB, Bool.and_eq_true]

theorem wfFields_destOf {t : JValue} (h : wfB t = true) :
    wfFields (destOf t) = true := by
  cases t <;> simp_all [destOf, wfFields, wfB, Bool.and_eq_true]

theorem getProp_wf {t v : JValue} {k : String} (h : wfB t = true)
    (hg : getProp t k = some v) : wfB v = true := by
  cases t
  case obj fs => exact wfFields_mem (wfB_obj_parts h).2 (getVal_mem hg)
  all_goals simp [getProp] at hg

theorem sizeOf_snd_lt_obj {fs : JFields} {p : String × JValue} (h : p ∈ fs) :
    sizeOf p.2 < sizeOf (JValue.obj fs) := by
  induction fs with
  | nil => simp at h
  | cons q rest ih =>
      rcases List.mem_cons.mp h with he | he
      · subst he
        obtain ⟨k1, v1⟩ := p
        simp
        omega
      · have := ih he
        simp at this ⊢
        omega

theorem hasKey_of_mem {l : JFields} {p : String × JValue} (h : p ∈ l) :
    hasKey l p.1 = true := by
  induction l with
  | nil => simp at h
  | cons q rest ih =>
      obtain ⟨k1, v1⟩ := q
      by_cases h1 : k1 = p.1
      · simp [hasKey, getVal, h1]
      · rcases List.mem_cons.mp h with he | he
        · exact absurd (congrArg Prod.fst he.symm) h1
        · simpa [hasKey, getVal, h1] using ih he

theorem nodupKeys_mapSnd (f : String → JValue → JValue) (l : JFields) :
    nodupKeys (l.map (fun p => (p.1, f p.1 p.2))) = nodupKeys l := by
  induction l with
  | nil => simp
  | cons p rest ih =>
      obtain ⟨k1, v1⟩ := p
      simp [nodupKeys, keyFree_mapSnd, ih]

theorem keyFree_filter {k : String} {l : JFields} (q : String × JValue → Bool)
    (h : keyFree k l = true) : keyFree k (l.filter q) = true := by
  induction l with
  | nil => simp [keyFree]
  | cons p rest ih =>
      obtain ⟨k1, v1⟩ := p
      simp only [keyFree, Bool.and_eq_true] at h
      by_cases hq : q (k1, v1) = true
      · simp [List.filter_cons, hq, keyFree, h.1, ih h.2]
      · simp [List.filter_cons, Bool.eq_false_iff.mpr hq, ih h.2]

theorem nodupKeys_filter {l : JFields} (q : String × JValue → Bool)
    (h : nodupKeys l = true) : nodupKeys (l.filter q) = true := by
  induction l with
  | nil => simp [nodupKeys]
  | cons p rest ih =>
      obtain ⟨k1, v1⟩ := p
      simp only [nodupKeys, Bool.and_eq_true] at h
      by_cases hq : q (k1, v1) = true
      · simp only [List.filter_cons, hq, if_true, nodupKeys, Bool.and_eq_true]
        exact ⟨keyFree_filter q h.1, ih h.2⟩
      · simp [List.filter_cons, Bool.eq_false_iff.mpr hq, ih h.2]

theorem mem_newEntries {t : JValue} {T F : JFields} {p : String × JValue}
    (h : p ∈ newEntries t T F) :
    hasKey T p.1 = false ∧ ∃ q, q ∈ F ∧ p = (q.1, mergeVal t q.1 q.2) := by
  unfold newEntries at h
  obtain ⟨q, hq, he⟩ := List.mem_map.mp h
  have hf := List.mem_filter.mp hq
  constructor
  · have : (!(hasKey T q.1)) = true := hf.2
    simp only [← he]
    simpa using this
  · exact ⟨q, hf.1, he.symm⟩

theorem nodupKeys_newEntries {t : JValue} {T F : JFields}
    (hF : nodupKeys F = true) : nodupKeys (newEntries t T F) = true := by
  unfold newEntries
  rw [nodupKeys_mapSnd]
  exact nodupKeys_filter _ hF

/-! ### Self-merge -/

theorem filter_all_false {α : Type} {l : List α} {p : α → Bool}
    (h : ∀ a ∈ l, p a = false) : l.filter p = [] := by
  induction l with
  | nil => rfl
  | cons a rest ih =>
      simp [List.filter_cons, h a (List.mem_cons_self a rest),
        ih fun b hb => h b (List.mem_cons_of_mem a hb)]

theorem filter_all_true {α : Type} {l : List α} {p : α → Bool}
    (h : ∀ a ∈ l, p a = true) : l.filter p = l := by
  induction l with
  | nil => rfl
  | cons a rest ih =>
      simp [List.filter_cons, h a (List.mem_cons_self a rest),
        ih fun b hb => h b (List.mem_cons_of_mem a hb)]

theorem deepmerge_prim_src {t s : JValue} (hT : isArr t = false)
    (hA : isArr s = false) (hM : isMergeable s = false) :
    deepmerge t s = .obj (destOf t) := by
  cases t <;> cases s <;> simp_all [deepmerge, isArr, isMergeable]

/-- A `mergeObject` pass over fields that are already their own merge with
the target leaves the destination untouched. -/
theorem mergeFields_fixed (t : JValue) (F : JFields) :
    ∀ (acc : JFields),
    (∀ p ∈ F, getProp t p.1 = some p.2 ∧ getVal acc p.1 = some p.2 ∧
      (isMergeable p.2 = true → deepmerge p.2 p.2 = p.2)) →
    mergeFields t acc F = acc := by
  induction F with
  | nil =>
      intro acc _
      simp [mergeFields]
  | cons p rest ih =>
      intro acc hcond
      obtain ⟨k, sv⟩ := p
      have hp := hcond (k, sv) (List.mem_cons_self _ _)
      have hmv : mergeVal t k sv = sv := by
        simp only [mergeVal]
        rw [hp.1]
        by_cases hm : isMergeable sv = true
        · simp [hm, hp.2.2 hm]
        · simp [Bool.eq_false_iff.mpr hm]
      rw [mergeFields_cons, hmv, setVal_self _ _ _ hp.2.1]
      exact ih acc fun q hq => hcond q (List.mem_cons_of_mem _ hq)

/-- Merging a (well-formed) target's own fields into themselves changes
nothing, provided each mergeable field value is its own deep merge. -/
theorem mergeFields_diag (t : JValue) (hwf : wfB t = true)
    (hself : ∀ p ∈ destOf t, isMergeable p.2 = true → deepmerge p.2 p.2 = p.2) :
    mergeFields t (destOf t) (destOf t) = destOf t := by
  apply mergeFields_fixed
  intro p hp
  have hpe : (p.1, p.2) ∈ destOf t := by simpa using hp
  have hv : getVal (destOf t) p.1 = some p.2 :=
    getVal_of_mem_nodup (nodupKeys_destOf hwf) hpe
  exact ⟨(getProp_destOf t p.1).symm ▸ hv, hv, hself p hp⟩

/-- A well-formed mergeable value merged with itself is itself. -/
theorem deepmerge_self :
    ∀ (v : JValue), wfB v = true → isMergeable v = true → deepmerge v v = v
  | .arr es, _, _ => deepmerge_src_arr _ es
  | .obj fs, hwf, _ => by
      rw [deepmerge_obj_src fs (show isArr (JValue.obj fs) = false from rfl)]
      refine congrArg JValue.obj (mergeFields_diag (JValue.obj fs) hwf ?_)
      intro p hp hpm
      have hpwf : wfB p.2 = true :=
        wfFields_mem (wfB_obj_parts hwf).2 (by simpa using hp)
      exact deepmerge_self p.2 hpwf hpm
  | .jnull, _, hm => by simp [isMergeable] at hm
  | .undef, _, hm => by simp [isMergeable] at hm
  | .jbool b, _, hm => by simp [isMergeable] at hm
  | .num n, _, hm => by simp [isMergeable] at hm
  | .str s, _, hm => by simp [isMergeable] at hm
termination_by v => sizeOf v
decreasing_by
  have h2 := sizeOf_snd_lt_obj hp
  simp only [destOf] at h2
  exact h2

/-! ### Idempotence of the hydration merge -/

theorem updFun_some {F : JFields} {k : String} {sv : JValue} (t v : JValue)
    (h : getVal F k = some sv) : updFun t F k v = mergeVal t k sv := by
  simp [updFun, h]

theorem updFun_none {F : JFields} {k : String} (t v : JValue)
    (h : getVal F k = none) : updFun t F k v = v := by
  simp [updFun, h]

theorem newEntries_append (t : JValue) (T A B : JFields) :
    newEntries t T (A ++ B) = newEntries t T A ++ newEntries t T B := by
  unfold newEntries
  rw [List.filter_append, List.map_append]

/-- Source fields that are all foreign to the destination and already fully
merged pass through `newEntries` unchanged. -/
theorem newEntries_of_free (t : JValue) (T : JFields) {L : JFields}
    (hfree : ∀ p ∈ L, hasKey T p.1 = false)
    (hfix : ∀ p ∈ L, mergeVal t p.1 p.2 = p.2) :
    newEntries t T L = L := by
  unfold newEntries
  rw [filter_all_true fun p hp => by simp [hfree p hp]]
  have hpt : ∀ p ∈ L, (fun p => (p.1, mergeVal t p.1 p.2)) p = id p := by
    intro p hp
    simp [hfix p hp]
  rw [map_congr_on hpt, List.map_id]

/-- Re-running the `mergeObject` pass of the hydration merge over its own
output changes nothing (inner idempotence supplied by `hrec`). -/
theorem mergeFields_idem_aux (t : JValue) (fs : JFields)
    (ht : wfB t = true) (hs : wfB (JValue.obj fs) = true)
    (hrec : ∀ v sv, wfB v = true → wfB sv = true → (∃ k, (k, sv) ∈ fs) →
        deepmerge v (deepmerge v sv) = deepmerge v sv) :
    mergeFields t (destOf t) (mergeFields t (destOf t) fs) =
      mergeFields t (destOf t) fs := by
  have hTnd : nodupKeys (destOf t) = true := nodupKeys_destOf ht
  have hTwf : wfFields (destOf t) = true := wfFields_destOf ht
  have hFnd : nodupKeys fs = true := (wfB_obj_parts hs).1
  have hFwf : wfFields fs = true := (wfB_obj_parts hs).2
  have hD := mergeFields_eq_alt t (destOf t) fs hTnd hFnd
  have hmapA : (destOf t).map (updSrc t fs) =
      (destOf t).map (fun p => (p.1, updFun t fs p.1 p.2)) := rfl
  have hDnd : nodupKeys (mergeFields t (destOf t) fs) = true := by
    rw [hD]
    apply nodupKeys_append
    · rw [hmapA, nodupKeys_mapSnd]
      exact hTnd
    · exact nodupKeys_newEntries hFnd
    · intro p hp
      have hn := (mem_newEntries hp).1
      have hkf : keyFree p.1 (destOf t) = true :=
        keyFree_of_getVal_none ((hasKey_false_iff _ _).mp hn)
      rw [hmapA, keyFree_mapSnd]
      exact hkf
  have habsorb : ∀ k v, getProp t k = some v → wfB v = true →
      mergeVal t k (updFun t fs k v) = updFun t fs k v := by
    intro k v hgp hvwf
    cases hc : getVal fs k with
    | none =>
        rw [updFun_none t v hc]
        simp only [mergeVal, hgp]
        by_cases hm : isMergeable v = true
        · simp [hm, deepmerge_self v hvwf hm]
        · simp [Bool.eq_false_iff.mpr hm]
    | some sv =>
        have hsvmem : (k, sv) ∈ fs := getVal_mem hc
        have hsvwf : wfB sv = true := wfFields_mem hFwf hsvmem
        rw [updFun_some t v hc]
        simp only [mergeVal, hgp]
        by_cases hm : isMergeable sv = true
        · rw [if_pos hm]
          cases sv with
          | arr es => simp [deepmerge_src_arr]
          | obj sf =>
              cases hva : isArr v with
              | true =>
                  cases v with
                  | arr vs =>
                      rw [deepmerge_arr_tgt vs
                        (show isArr (JValue.obj sf) = false from rfl)]
                      simp [deepmerge_arr_tgt vs
                        (show isArr (JValue.obj sf) = false from rfl)]
                  | jnull => simp [isArr] at hva
                  | undef => simp [isArr] at hva
                  | jbool b => simp [isArr] at hva
                  | num n => simp [isArr] at hva
                  | str s2 => simp [isArr] at hva
                  | obj o => simp [isArr] at hva
              | false =>
                  have humerge : isMergeable (deepmerge v (JValue.obj sf)) = true := by
                    rw [deepmerge_obj_src sf hva]
                    rfl
                  rw [if_pos humerge]
                  exact hrec v (.obj sf) hvwf hsvwf ⟨k, hsvmem⟩
          | jnull => simp [isMergeable] at hm
          | undef => simp [isMergeable] at hm
          | jbool b => simp [isMergeable] at hm
          | num n => simp [isMergeable] at hm
          | str s2 => simp [isMergeable] at hm
        · have hm2 : isMergeable sv = false := Bool.eq_false_iff.mpr hm
          simp [hm2]
  have hcomp1 : (destOf t).map (updSrc t (mergeFields t (destOf t) fs)) =
      (destOf t).map (updSrc t fs) := by
    apply map_congr_on
    intro p hp
    have hpe : (p.1, p.2) ∈ destOf t := by simpa using hp
    have hv : getVal (destOf t) p.1 = some p.2 := getVal_of_mem_nodup hTnd hpe
    have hgp : getProp t p.1 = some p.2 := by rw [getProp_destOf]; exact hv
    have hvwf : wfB p.2 = true := wfFields_mem hTwf hpe
    have hgA : getVal ((destOf t).map (fun q => (q.1, updFun t fs q.1 q.2))) p.1
        = some (updFun t fs p.1 p.2) := by
      rw [getVal_mapSnd]
      simp [hv]
    have hgD : getVal (mergeFields t (destOf t) fs) p.1
        = some (updFun t fs p.1 p.2) := by
      rw [hD]
      exact getVal_append_left _ (hmapA ▸ hgA)
    show (p.1, updFun t (mergeFields t (destOf t) fs) p.1 p.2)
        = (p.1, updFun t fs p.1 p.2)
    rw [updFun_some t p.2 hgD, habsorb p.1 p.2 hgp hvwf]
  have hA0 : newEntries t (destOf t) ((destOf t).map (updSrc t fs)) = [] := by
    unfold newEntries
    have hempty : ((destOf t).map (updSrc t fs)).filter
        (fun p => !(hasKey (destOf t) p.1)) = [] := by
      apply filter_all_false
      intro p hp
      obtain ⟨q, hq, he⟩ := List.mem_map.mp hp
      have he1 : p.1 = q.1 := by rw [← he]; rfl
      have hk : hasKey (destOf t) p.1 = true := by
        rw [he1]
        exact hasKey_of_mem hq
      simp [hk]
    rw [hempty]
    rfl
  have hB0 : newEntries t (destOf t) (newEntries t (destOf t) fs) =
      newEntries t (destOf t) fs := by
    apply newEntries_of_free
    · intro p hp
      exact (mem_newEntries hp).1
    · intro p hp
      have hn := (mem_newEntries hp).1
      have hgp : getProp t p.1 = none := by
        rw [getProp_destOf]
        exact (hasKey_false_iff _ _).mp hn
      exact mergeVal_of_absent _ hgp
  calc mergeFields t (destOf t) (mergeFields t (destOf t) fs)
      = (destOf t).map (updSrc t (mergeFields t (destOf t) fs)) ++
        newEntries t (destOf t) (mergeFields t (destOf t) fs) :=
        mergeFields_eq_alt t _ _ hTnd hDnd
    _ = (destOf t).map (updSrc t fs) ++ newEntries t (destOf t) fs := by
        rw [hcomp1, hD, newEntries_append, hA0, hB0]
        simp
    _ = mergeFields t (destOf t) fs := (mergeFields_eq_alt t _ _ hTnd hFnd).symm

/-- Idempotence for a primitive source. -/
theorem deepmerge_idem_prim (t s : JValue) (ht : wfB t = true)
    (hA : isArr s = false) (hM : isMergeable s = false) :
    deepmerge t (deepmerge t s) = deepmerge t s := by
  cases harr : isArr t with
  | true =>
      cases t with
      | arr ts => rw [deepmerge_arr_tgt ts hA, deepmerge_arr_tgt ts hA]
      | jnull => simp [isArr] at harr
      | undef => simp [isArr] at harr
      | jbool b => simp [isArr] at harr
      | num n => simp [isArr] at harr
      | str s2 => simp [isArr] at harr
      | obj o => simp [isArr] at harr
  | false =>
      rw [deepmerge_prim_src harr hA hM, deepmerge_obj_src _ harr]
      refine congrArg JValue.obj (mergeFields_diag t ht ?_)
      intro p hp hm
      exact deepmerge_self p.2
        (wfFields_mem (wfFields_destOf ht) (by simpa using hp)) hm

/-- Main algebraic fact behind the idempotent hydration: with the
`overwriteMerge` array rule, re-merging the same target into an
already-merged value changes nothing (for well-formed JS values). -/
theorem deepmerge_idem :
    ∀ (t s : JValue), wfB t = true → wfB s = true →
      deepmerge t (deepmerge t s) = deepmerge t s
  | t, .arr es, _, _ => by rw [deepmerge_src_arr, deepmerge_src_arr]
  | t, .obj fs, ht, hs => by
      cases harr : isArr t with
      | true =>
          cases t with
          | arr ts =>
              rw [deepmerge_arr_tgt ts (show isArr (JValue.obj fs) = false from rfl),
                deepmerge_arr_tgt ts (show isArr (JValue.obj fs) = false from rfl)]
          | jnull => simp [isArr] at harr
          | undef => simp [isArr] at harr
          | jbool b => simp [isArr] at harr
          | num n => simp [isArr] at harr
          | str s2 => simp [isArr] at harr
          | obj o => simp [isArr] at harr
      | false =>
          rw [deepmerge_obj_src fs harr, deepmerge_obj_src _ harr]
          refine congrArg JValue.obj (mergeFields_idem_aux t fs ht hs ?_)
          intro v sv hv hsv hmem
          obtain ⟨k, hk⟩ := hmem
          exact deepmerge_idem v sv hv hsv
  | t, .jnull, ht, _ => deepmerge_idem_prim t .jnull ht rfl rfl
  | t, .undef, ht, _ => deepmerge_idem_prim t .undef ht rfl rfl
  | t, .jbool b, ht, _ => deepmerge_idem_prim t (.jbool b) ht rfl rfl
  | t, .num n, ht, _ => deepmerge_idem_prim t (.num n) ht rfl rfl
  | t, .str s2, ht, _ => deepmerge_idem_prim t (.str s2) ht rfl rfl
termination_by t s => sizeOf s
decreasing_by
  have h2 := sizeOf_snd_lt_obj hk
  simp only at h2
  exact h2

/-! ### Unfolding lemmas for initializeApollo -/

theorem isUndef_false_of_truthy {arg : JValue} (h : truthy arg = true) :
    isUndef arg = false := by
  cases arg <;> simp_all [truthy, isUndef]

theorem eq_undef_of_isUndef {arg : JValue} (h : isUndef arg = true) :
    arg = JValue.undef := by
  cases arg <;> simp_all [isUndef]

theorem init_memoSome_truthy (ctx : ExecCtx) (arg : JValue) (c : Client) (n : Nat)
    (h2 : truthy arg = true) :
    initializeApollo ctx arg ⟨some c, n⟩ =
      ({ c with cache := asFields (deepmerge arg (.obj c.cache)) },
       ⟨some { c with cache := asFields (deepmerge arg (.obj c.cache)) }, n⟩) := by
  have h1 := isUndef_false_of_truthy h2
  cases ctx <;> simp [initializeApollo, h1, h2]

theorem init_memoSome_falsy (ctx : ExecCtx) (arg : JValue) (c : Client) (n : Nat)
    (h2 : truthy arg = false) :
    initializeApollo ctx arg ⟨some c, n⟩ = (c, ⟨some c, n⟩) := by
  cases h1 : isUndef arg with
  | true =>
      rw [eq_undef_of_isUndef h1]
      cases ctx <;> simp [initializeApollo, isUndef, truthy]
  | false =>
      cases ctx <;> simp [initializeApollo, h1, h2]

theorem init_server_none_truthy (arg : JValue) (n : Nat)
    (h2 : truthy arg = true) :
    initializeApollo .server arg ⟨none, n⟩ =
      (⟨n, asFields (deepmerge arg (.obj []))⟩, ⟨none, n + 1⟩) := by
  have h1 := isUndef_false_of_truthy h2
  simp [initializeApollo, h1, h2, createApolloClient]

theorem init_client_none_truthy (arg : JValue) (n : Nat)
    (h2 : truthy arg = true) :
    initializeApollo .client arg ⟨none, n⟩ =
      (⟨n, asFields (deepmerge arg (.obj []))⟩,
       ⟨some ⟨n, asFields (deepmerge arg (.obj []))⟩, n + 1⟩) := by
  have h1 := isUndef_false_of_truthy h2
  simp [initializeApollo, h1, h2, createApolloClient]

theorem init_server_none_falsy (arg : JValue) (n : Nat)
    (h2 : truthy arg = false) :
    initializeApollo .server arg ⟨none, n⟩ = (⟨n, []⟩, ⟨none, n + 1⟩) := by
  cases h1 : isUndef arg with
  | true =>
      rw [eq_undef_of_isUndef h1]
      simp [initializeApollo, isUndef, truthy, createApolloClient]
  | false =>
      simp [initializeApollo, h1, h2, createApolloClient]

theorem init_client_none_falsy (arg : JValue) (n : Nat)
    (h2 : truthy arg = false) :
    initializeApollo .client arg ⟨none, n⟩ =
      (⟨n, []⟩, ⟨some ⟨n, []⟩, n + 1⟩) := by
  cases h1 : isUndef arg with
  | true =>
      rw [eq_undef_of_isUndef h1]
      simp [initializeApollo, isUndef, truthy, createApolloClient]
  | false =>
      simp [initializeApollo, h1, h2, createApolloClient]

theorem deepmerge_obj_empty (sf : JFields) :
    deepmerge (.obj sf) (.obj []) = .obj sf := by
  rw [deepmerge_obj_src [] (show isArr (JValue.obj sf) = false from rfl)]
  simp [mergeFields, destOf]

theorem deepmerge_empty_obj (cF : JFields) (hnd : nodupKeys cF = true) :
    deepmerge (.obj []) (.obj cF) = .obj cF := by
  rw [deepmerge_obj_src cF (show isArr (JValue.obj []) = false from rfl)]
  have h0 : nodupKeys (destOf (JValue.obj [])) = true := rfl
  rw [mergeFields_eq_alt _ _ _ h0 hnd]
  simp only [destOf, List.map_nil, List.nil_append]
  refine congrArg JValue.obj (newEntries_of_free _ _ ?_ ?_)
  · intro p hp
    rfl
  · intro p hp
    exact mergeVal_of_absent _ rfl

theorem init_cache_memoSome (ctx : ExecCtx) (sf existing : JFields) (cid n : Nat) :
    (initializeApollo ctx (.obj sf) ⟨some ⟨cid, existing⟩, n⟩).1.cache =
      mergeFields (.obj sf) sf existing := by
  rw [init_memoSome_truthy ctx (.obj sf) ⟨cid, existing⟩ n
    (show truthy (JValue.obj sf) = true from rfl)]
  simp only
  rw [deepmerge_obj_src existing (show isArr (JValue.obj sf) = false from rfl)]
  simp [asFields, destOf]

/-! ### The claims -/

/-- C1: For every existing cache and every supplied snapshot, the merged
cache produced by `initializeApollo` follows the deterministic rule: for a
key present in both, the existing cache's value wins for scalar fields and
for array fields the existing cache's array entirely replaces the
snapshot's (object fields merge recursively with the existing cache as the
winning side); a key absent from the snapshot keeps the existing value, and
a key absent from the existing cache adopts the snapshot's value.  In
particular, existing `{list: [1,2,3]}` merged with snapshot `{list: [9]}`
leaves `list = [1,2,3]`. -/
theorem C1_initialize_merge_overwrite (existing snapF : JFields)
    (cid nid : Nat) (hnd : nodupKeys existing = true) :
    (∀ k sv ev, getVal snapF k = some sv → getVal existing k = some ev →
        isMergeable ev = false →
        getVal ((initializeApollo .client (.obj snapF)
          ⟨some ⟨cid, existing⟩, nid⟩).1.cache) k = some ev)
    ∧ (∀ k ss es, getVal snapF k = some (.arr ss) →
        getVal existing k = some (.arr es) →
        getVal ((initializeApollo .client (.obj snapF)
          ⟨some ⟨cid, existing⟩, nid⟩).1.cache) k = some (.arr es))
    ∧ (∀ k sf2 ef, getVal snapF k = some (.obj sf2) →
        getVal existing k = some (.obj ef) →
        getVal ((initializeApollo .client (.obj snapF)
          ⟨some ⟨cid, existing⟩, nid⟩).1.cache) k
          = some (deepmerge (.obj sf2) (.obj ef)))
    ∧ (∀ k ev, getVal snapF k = none → getVal existing k = some ev →
        getVal ((initializeApollo .client (.obj snapF)
          ⟨some ⟨cid, existing⟩, nid⟩).1.cache) k = some ev)
    ∧ (∀ k sv, getVal existing k = none → getVal snapF k = some sv →
        getVal ((initializeApollo .client (.obj snapF)
          ⟨some ⟨cid, existing⟩, nid⟩).1.cache) k = some sv)
    ∧ getVal ((initializeApollo .client (.obj [("list", .arr [.num 9])])
          ⟨some ⟨0, [("list", .arr [.num 1, .num 2, .num 3])]⟩, 1⟩).1.cache)
        "list" = some (.arr [.num 1, .num 2, .num 3]) := by
  have hmain : ∀ k,
      getVal ((initializeApollo .client (.obj snapF)
        ⟨some ⟨cid, existing⟩, nid⟩).1.cache) k
      = match getVal existing k with
        | some ev => some (mergeVal (.obj snapF) k ev)
        | none => getVal snapF k := by
    intro k
    rw [init_cache_memoSome, getVal_mergeFields _ _ _ _ hnd]
  refine ⟨?_, ?_, ?_, ?_, ?_, ?_⟩
  · intro k sv ev hsk hek hm
    rw [hmain k, hek]
    simp [mergeVal, getProp, hsk, hm]
  · intro k ss es hsk hek
    rw [hmain k, hek]
    simp [mergeVal, getProp, hsk, isMergeable, deepmerge_src_arr]
  · intro k sf2 ef hsk hek
    rw [hmain k, hek]
    simp [mergeVal, getProp, hsk, isMergeable]
  · intro k ev hsk hek
    rw [hmain k, hek]
    simp [mergeVal, getProp, hsk]
  · intro k sv hek hsk
    rw [hmain k, hek]
    exact hsk
  · simp [init_cache_memoSome, mergeFields, mergeVal, getProp, getVal,
      isMergeable, deepmerge, overwriteMerge, setVal]

/-- Witness for C1 at a concrete input: existing cache `{a: 1}`, snapshot
`{a: 2, b: 3}`; the merged cache keeps `a = 1`. -/
theorem C1_witness :
    nodupKeys [("a", JValue.num 1)] = true ∧
    getVal ((initializeApollo .client
        (.obj [("a", .num 2), ("b", .num 3)])
        ⟨some ⟨0, [("a", .num 1)]⟩, 1⟩).1.cache) "a" = some (.num 1) :=
  ⟨rfl, (C1_initialize_merge_overwrite [("a", .num 1)]
      [("a", .num 2), ("b", .num 3)] 0 1 rfl).1 "a" (.num 2) (.num 1)
      rfl rfl rfl⟩

/-- Well-formedness of the module state: a memoized client's cache is the
image of an actual JS object (objects in it have pairwise-distinct keys). -/
def sysWf (s : Sys) : Bool :=
  match s.memo with
  | some c => wfB (.obj c.cache)
  | none => true

/-- C2: calling `initializeApollo` twice in sequence with the same snapshot
yields a cache state (returned client's cache, and memoized client)
identical to calling it once — the merge is idempotent and does not
duplicate entries. -/
theorem C2_initialize_idempotent (ctx : ExecCtx) (snap : JValue) (s : Sys)
    (hsnap : wfB snap = true) (hsys : sysWf s = true) :
    ((initializeApollo ctx snap (initializeApollo ctx snap s).2).1.cache
      = (initializeApollo ctx snap s).1.cache)
    ∧ ((initializeApollo ctx snap (initializeApollo ctx snap s).2).2.memo
      = (initializeApollo ctx snap s).2.memo) := by
  obtain ⟨memo, n⟩ := s
  cases memo with
  | some c =>
      have hcwf : wfB (.obj c.cache) = true := by simpa [sysWf] using hsys
      cases htr : truthy snap with
      | false =>
          rw [init_memoSome_falsy ctx snap c n htr]
          rw [init_memoSome_falsy ctx snap c n htr]
          exact ⟨rfl, rfl⟩
      | true =>
          rw [init_memoSome_truthy ctx snap c n htr]
          simp only
          rw [init_memoSome_truthy ctx snap
            { c with cache := asFields (deepmerge snap (.obj c.cache)) } n htr]
          simp only
          rw [deepmerge_obj_shape, deepmerge_idem snap (.obj c.cache) hsnap hcwf]
          exact ⟨rfl, rfl⟩
  | none =>
      cases ctx with
      | server =>
          cases htr : truthy snap with
          | true =>
              rw [init_server_none_truthy snap n htr]
              simp only
              rw [init_server_none_truthy snap (n + 1) htr]
              exact ⟨rfl, rfl⟩
          | false =>
              rw [init_server_none_falsy snap n htr]
              simp only
              rw [init_server_none_falsy snap (n + 1) htr]
              exact ⟨rfl, rfl⟩
      | client =>
          cases htr : truthy snap with
          | true =>
              rw [init_client_none_truthy snap n htr]
              simp only
              rw [init_memoSome_truthy .client snap
                ⟨n, asFields (deepmerge snap (.obj []))⟩ (n + 1) htr]
              simp only
              rw [deepmerge_obj_shape,
                deepmerge_idem snap (.obj []) hsnap (by simp [wfB, nodupKeys, wfFields])]
              exact ⟨rfl, rfl⟩
          | false =>
              rw [init_client_none_falsy snap n htr]
              simp only
              rw [init_memoSome_falsy .client snap ⟨n, []⟩ (n + 1) htr]
              exact ⟨rfl, rfl⟩

/-- Witness for C2 at a concrete input: client context, snapshot
`{Post:1 3}` merged twice into an empty client starting state. -/
theorem C2_witness :
    wfB (.obj [("Post:1", JValue.num 3)]) = true ∧
    sysWf ⟨none, 0⟩ = true ∧
    (((initializeApollo .client (.obj [("Post:1", JValue.num 3)])
        (initializeApollo .client (.obj [("Post:1", JValue.num 3)]) ⟨none, 0⟩).2).1.cache
      = (initializeApollo .client (.obj [("Post:1", JValue.num 3)]) ⟨none, 0⟩).1.cache)
    ∧ ((initializeApollo .client (.obj [("Post:1", JValue.num 3)])
        (initializeApollo .client (.obj [("Post:1", JValue.num 3)]) ⟨none, 0⟩).2).2.memo
      = (initializeApollo .client (.obj [("Post:1", JValue.num 3)]) ⟨none, 0⟩).2.memo)) :=
  ⟨by simp [wfB, nodupKeys, wfFields, keyFree], rfl,
    C2_initialize_idempotent .client (.obj [("Post:1", JValue.num 3)]) ⟨none, 0⟩
      (by simp [wfB, nodupKeys, wfFields, keyFree]) rfl⟩

/-- C3: with both environment variables unset, the client context throws
the intended configuration error naming the public variable — but the
server context never produces its intended message: the guard `if (window)`
evaluates the bare identifier `window`, which is unbound in Node, so a
ReferenceError is thrown instead of the configuration error of line 17. -/
theorem C3_missing_env_messages :
    moduleInit .client none none = .configError clientEnvErrorMsg
    ∧ moduleInit .server none none = .refError "window is not defined"
    ∧ moduleInit .server none none ≠ .configError serverEnvErrorMsg := by
  refine ⟨rfl, rfl, ?_⟩
  intro h
  exact InitOutcome.noConfusion h

theorem server_keeps_unmemoized (snap : JValue) (s : Sys) (hm : s.memo = none) :
    (initializeApollo .server snap s).2.memo = none := by
  obtain ⟨memo, n⟩ := s
  simp only at hm
  subst hm
  cases htr : truthy snap with
  | true => rw [init_server_none_truthy snap n htr]
  | false => rw [init_server_none_falsy snap n htr]

theorem runCalls_server_unmemoized (snaps : List JValue) (s : Sys)
    (hm : s.memo = none) : (runCalls .server snaps s).memo = none := by
  induction snaps generalizing s with
  | nil => simpa [runCalls] using hm
  | cons x rest ih =>
      rw [runCalls]
      exact ih _ (server_keeps_unmemoized x s hm)

/-- C4: in the server context every call constructs a fresh client and
never stores it in the module-level memo: starting unmemoized, two
sequential server calls with different snapshots return clients whose
caches hold exactly their own snapshot, with distinct identities, and the
memo remains unset after any number of server calls. -/
theorem C4_server_never_memoizes (s : Sys) (aF bF : JFields)
    (hm : s.memo = none) :
    (initializeApollo .server (.obj aF) s).1.cache = aF
    ∧ (initializeApollo .server (.obj bF)
        (initializeApollo .server (.obj aF) s).2).1.cache = bF
    ∧ (initializeApollo .server (.obj aF) s).1.id ≠
      (initializeApollo .server (.obj bF)
        (initializeApollo .server (.obj aF) s).2).1.id
    ∧ (∀ snaps : List JValue, (runCalls .server snaps s).memo = none) := by
  obtain ⟨memo, n⟩ := s
  simp only at hm
  subst hm
  rw [init_server_none_truthy (.obj aF) n rfl]
  simp only
  rw [init_server_none_truthy (.obj bF) (n + 1) rfl]
  refine ⟨?_, ?_, ?_, ?_⟩
  · rw [deepmerge_obj_empty]
    rfl
  · rw [deepmerge_obj_empty]
    rfl
  · simp
  · intro snaps
    exact runCalls_server_unmemoized snaps _ rfl

/-- Witness for C4 at a concrete input: fresh state, snapshots `{A: 1}`
then `{B: 2}`. -/
theorem C4_witness :
    (initializeApollo .server (.obj [("A", JValue.num 1)]) ⟨none, 0⟩).1.cache
      = [("A", JValue.num 1)]
    ∧ (initializeApollo .server (.obj [("B", JValue.num 2)])
        (initializeApollo .server (.obj [("A", JValue.num 1)]) ⟨none, 0⟩).2).1.cache
      = [("B", JValue.num 2)]
    ∧ (initializeApollo .server (.obj [("A", JValue.num 1)]) ⟨none, 0⟩).1.id ≠
      (initializeApollo .server (.obj [("B", JValue.num 2)])
        (initializeApollo .server (.obj [("A", JValue.num 1)]) ⟨none, 0⟩).2).1.id
    ∧ (∀ snaps : List JValue, (runCalls .server snaps ⟨none, 0⟩).memo = none) :=
  C4_server_never_memoizes ⟨none, 0⟩ [("A", JValue.num 1)] [("B", JValue.num 2)] rfl

theorem init_falsy_cache (ctx : ExecCtx) (arg : JValue) (s : Sys)
    (h : truthy arg = false) :
    (initializeApollo ctx arg s).1.cache = currentCache s := by
  obtain ⟨memo, n⟩ := s
  cases memo with
  | some c => rw [init_memoSome_falsy ctx arg c n h]; rfl
  | none =>
      cases ctx with
      | server => rw [init_server_none_falsy arg n h]; rfl
      | client => rw [init_client_none_falsy arg n h]; rfl

/-- C5: in the client context the singleton is created at most once: a
first call memoizes the client it returns; a later call returns the
memoized instance (same identity), re-memoizes it, and only merges a newly
supplied snapshot into its existing cache; with no new snapshot the
memoized client is returned untouched.  Concretely, hydrating `Post:1` and
calling again with no snapshot returns the same instance with `Post:1`
still present. -/
theorem C5_client_singleton (snap : JValue) (c0 : Client) (n : Nat)
    (htr : truthy snap = true) :
    ((initializeApollo .client snap ⟨none, n⟩).2.memo
      = some (initializeApollo .client snap ⟨none, n⟩).1)
    ∧ ((initializeApollo .client snap ⟨some c0, n⟩).1.id = c0.id)
    ∧ ((initializeApollo .client snap ⟨some c0, n⟩).2.memo
      = some (initializeApollo .client snap ⟨some c0, n⟩).1)
    ∧ ((initializeApollo .client snap ⟨some c0, n⟩).1.cache
      = asFields (deepmerge snap (.obj c0.cache)))
    ∧ (initializeApollo .client JValue.undef ⟨some c0, n⟩ = (c0, ⟨some c0, n⟩))
    ∧ ((initializeApollo .client JValue.undef
        (initializeApollo .client (.obj [("Post:1", .obj [("title", .str "A")])])
          ⟨none, 0⟩).2).1
      = (initializeApollo .client (.obj [("Post:1", .obj [("title", .str "A")])])
          ⟨none, 0⟩).1)
    ∧ getVal ((initializeApollo .client JValue.undef
        (initializeApollo .client (.obj [("Post:1", .obj [("title", .str "A")])])
          ⟨none, 0⟩).2).1.cache) "Post:1" = some (.obj [("title", .str "A")]) := by
  have hpost :
      initializeApollo .client (.obj [("Post:1", .obj [("title", .str "A")])])
        ⟨none, 0⟩ =
      (⟨0, [("Post:1", .obj [("title", .str "A")])]⟩,
       ⟨some ⟨0, [("Post:1", .obj [("title", .str "A")])]⟩, 1⟩) := by
    rw [init_client_none_truthy (.obj [("Post:1", .obj [("title", .str "A")])]) 0
      (show truthy (JValue.obj [("Post:1", JValue.obj [("title", JValue.str "A")])]) = true
        from rfl),
      deepmerge_obj_empty]
    rfl
  refine ⟨?_, ?_, ?_, ?_, ?_, ?_, ?_⟩
  · rw [init_client_none_truthy snap n htr]
  · rw [init_memoSome_truthy .client snap c0 n htr]
  · rw [init_memoSome_truthy .client snap c0 n htr]
  · rw [init_memoSome_truthy .client snap c0 n htr]
  · rw [init_memoSome_falsy .client JValue.undef c0 n rfl]
  · rw [hpost]
    simp only
    rw [init_memoSome_falsy .client JValue.undef _ 1 rfl]
  · rw [hpost]
    simp only
    rw [init_memoSome_falsy .client JValue.undef _ 1 rfl]
    simp [getVal]

/-- Witness for C5 at a concrete input: snapshot `{Post:1 7}`, memoized
client of identity 4 with cache `{q: 5}`. -/
theorem C5_witness :
    truthy (JValue.obj [("Post:1", JValue.num 7)]) = true
    ∧ ((initializeApollo .client (.obj [("Post:1", JValue.num 7)])
        ⟨some ⟨4, [("q", JValue.num 5)]⟩, 9⟩).1.id = 4) :=
  ⟨rfl, ((C5_client_singleton (.obj [("Post:1", JValue.num 7)])
      ⟨4, [("q", JValue.num 5)]⟩ 9 rfl).2).1⟩

/-- C6: when the snapshot argument is absent — a call with no argument
passes `undefined` and the declared default `null` is taken — no merge or
restore happens and the client (newly created or reused) is returned with
its cache unmodified; the model is total, so no error is raised. -/
theorem C6_absent_snapshot_unmodified (ctx : ExecCtx) (s : Sys) :
    ((initializeApollo ctx JValue.undef s).1.cache = currentCache s)
    ∧ ((initializeApollo ctx JValue.jnull s).1.cache = currentCache s)
    ∧ (∀ c0 n, (initializeApollo ctx JValue.undef ⟨some c0, n⟩).1 = c0) := by
  refine ⟨init_falsy_cache ctx _ s rfl, init_falsy_cache ctx _ s rfl, ?_⟩
  intro c0 n
  rw [init_memoSome_falsy ctx JValue.undef c0 n rfl]

/-- C7: if `pageProps` has a truthy (object) `props` field, `addApolloState`
writes the extracted cache snapshot under the reserved key inside it and
returns the mutated structure; when `props` is absent or falsy, the
structure is returned unchanged. -/
theorem C7_addApolloState_embed (c : Client) (pp pfs : JFields)
    (h : getVal pp "props" = some (.obj pfs)) :
    (addApolloState c pp =
      setVal pp "props"
        (.obj (setVal pfs APOLLO_STATE_PROP_NAME (.obj c.cache))))
    ∧ (getVal (setVal pfs APOLLO_STATE_PROP_NAME (.obj c.cache))
        APOLLO_STATE_PROP_NAME = some (.obj c.cache))
    ∧ (∀ pp2 : JFields, getVal pp2 "props" = none → addApolloState c pp2 = pp2)
    ∧ (∀ pp2 pv, getVal pp2 "props" = some pv → truthy pv = false →
        addApolloState c pp2 = pp2) := by
  refine ⟨?_, ?_, ?_, ?_⟩
  · simp [addApolloState, h, truthy, asFields]
  · simp [getVal_setVal]
  · intro pp2 h2
    simp [addApolloState, h2]
  · intro pp2 pv h2 htr
    simp [addApolloState, h2, htr]

/-- Witness for C7 at a concrete input: client cache `{x: 1}`, page props
`{props: {}, revalidate: 1}`. -/
theorem C7_witness :
    getVal [("props", JValue.obj []), ("revalidate", JValue.num 1)] "props"
      = some (.obj [])
    ∧ (addApolloState ⟨0, [("x", JValue.num 1)]⟩
        [("props", JValue.obj []), ("revalidate", JValue.num 1)] =
      setVal [("props", JValue.obj []), ("revalidate", JValue.num 1)] "props"
        (.obj (setVal [] APOLLO_STATE_PROP_NAME
          (.obj [("x", JValue.num 1)])))) :=
  ⟨rfl, (C7_addApolloState_embed ⟨0, [("x", JValue.num 1)]⟩
      [("props", JValue.obj []), ("revalidate", JValue.num 1)] [] rfl).1⟩

theorem map_fst_setVal {l : JFields} {k : String} (v : JValue)
    (h : hasKey l k = true) : (setVal l k v).map Prod.fst = l.map Prod.fst := by
  induction l with
  | nil => simp [hasKey, getVal] at h
  | cons p rest ih =>
      obtain ⟨k1, v1⟩ := p
      by_cases h1 : k1 = k
      · subst h1
        simp [setVal]
      · have h2 : hasKey rest k = true := by
          simpa [hasKey, getVal, h1] using h
        simp [setVal, h1, ih h2]

/-- C8: `addApolloState` changes at most the single entry
`pageProps.props[APOLLO_STATE_PROP_NAME]`: the top-level key list is
preserved exactly (the structure is updated in place, not rebuilt), every
top-level key other than `props` keeps its value, and every key of
`pageProps.props` other than the reserved one keeps its value. -/
theorem C8_addApolloState_frame (c : Client) (pp : JFields) :
    ((addApolloState c pp).map Prod.fst = pp.map Prod.fst)
    ∧ (∀ k, k ≠ "props" → getVal (addApolloState c pp) k = getVal pp k)
    ∧ (∀ pfs k2, getVal pp "props" = some (.obj pfs) →
        k2 ≠ APOLLO_STATE_PROP_NAME →
        getVal (asFields ((getVal (addApolloState c pp) "props").getD
          JValue.undef)) k2 = getVal pfs k2) := by
  refine ⟨?_, ?_, ?_⟩
  · cases hp : getVal pp "props" with
    | none => simp [addApolloState, hp]
    | some pv =>
        cases htr : truthy pv with
        | false => simp [addApolloState, hp, htr]
        | true =>
            simp only [addApolloState, hp, htr, if_true]
            exact map_fst_setVal _ (by simp [hasKey, hp])
  · intro k hk
    cases hp : getVal pp "props" with
    | none => simp [addApolloState, hp]
    | some pv =>
        cases htr : truthy pv with
        | false => simp [addApolloState, hp, htr]
        | true =>
            simp only [addApolloState, hp, htr, if_true]
            simp [getVal_setVal, hk]
  · intro pfs k2 hp hk2
    simp only [addApolloState, hp, truthy, if_true]
    simp [getVal_setVal, asFields, hk2]

/-- C9: the merge-and-restore path of `initializeApollo` is guarded by the
truthiness of the snapshot: every falsy snapshot (`null`, `undefined`,
`false`, `0`, `""`) leaves the cache untouched, while the truthy
empty-object snapshot `{}` takes the merge path and produces a cache whose
contents equal the existing cache. -/
theorem C9_falsy_vs_empty_snapshot (ctx : ExecCtx) (s : Sys) :
    (∀ v, truthy v = false → (initializeApollo ctx v s).1.cache = currentCache s)
    ∧ (truthy JValue.jnull = false ∧ truthy JValue.undef = false
       ∧ truthy (JValue.jbool false) = false ∧ truthy (JValue.num 0) = false
       ∧ truthy (JValue.str "") = false)
    ∧ (truthy (JValue.obj []) = true)
    ∧ (∀ c0 n, sysWf ⟨some c0, n⟩ = true →
        (initializeApollo ctx (.obj []) ⟨some c0, n⟩).1.cache = c0.cache)
    ∧ (∀ n, (initializeApollo ctx (.obj []) ⟨none, n⟩).1.cache = []) := by
  refine ⟨?_, ⟨rfl, rfl, rfl, rfl, rfl⟩, rfl, ?_, ?_⟩
  · intro v hv
    exact init_falsy_cache ctx v s hv
  · intro c0 n hwf
    have hnd : nodupKeys c0.cache = true := by
      simp only [sysWf, wfB, Bool.and_eq_true] at hwf
      exact hwf.1
    rw [init_memoSome_truthy ctx (.obj []) c0 n rfl]
    simp only
    rw [deepmerge_empty_obj c0.cache hnd]
    rfl
  · intro n
    cases ctx with
    | server =>
        rw [init_server_none_truthy (.obj []) n rfl]
        rw [deepmerge_obj_empty]
        rfl
    | client =>
        rw [init_client_none_truthy (.obj []) n rfl]
        rw [deepmerge_obj_empty]
        rfl

/-- C10 counterexample: the round-trip consequence does not hold for every
props structure — when the structure itself already holds the reserved key
at top level, `useApollo` applied to `addApolloState`'s output reads that
value (not `undefined`) and initializes with a snapshot. -/
theorem C10_counterexample :
    (getVal (addApolloState ⟨0, []⟩
        [(APOLLO_STATE_PROP_NAME, JValue.obj [("x", JValue.num 1)]),
         ("props", JValue.obj [])]) APOLLO_STATE_PROP_NAME
      = some (JValue.obj [("x", JValue.num 1)]))
    ∧ ((useApollo .client (addApolloState ⟨0, []⟩
        [(APOLLO_STATE_PROP_NAME, JValue.obj [("x", JValue.num 1)]),
         ("props", JValue.obj [])]) ⟨none, 0⟩).1.cache
      ≠ currentCache ⟨none, 0⟩) := by
  constructor
  · simp [addApolloState, getVal, truthy, setVal, asFields,
      APOLLO_STATE_PROP_NAME]
  · simp [useApollo, addApolloState, getVal, truthy, setVal, asFields,
      APOLLO_STATE_PROP_NAME, initializeApollo, isUndef, createApolloClient,
      currentCache, deepmerge, mergeFields, destOf, getProp, mergeVal,
      isMergeable, overwriteMerge]

/-- C10 (amended): `useApollo` reads the snapshot from the top level of its
argument and passes it to `initializeApollo`, while `addApolloState` writes
the snapshot one level deeper under `props`; hence, for every props
structure that does not itself hold the reserved key at top level, applying
`useApollo` directly to `addApolloState`'s output reads an undefined
snapshot and initializes with no snapshot — the round trip only works once
the rendering layer unwraps the `props` field. -/
theorem C10_roundtrip_mismatch (ctx : ExecCtx) (c : Client) (p : JFields)
    (s : Sys) (h : getVal p APOLLO_STATE_PROP_NAME = none) :
    (getVal (addApolloState c p) APOLLO_STATE_PROP_NAME = none)
    ∧ (useApollo ctx (addApolloState c p) s
        = initializeApollo ctx JValue.undef s)
    ∧ ((useApollo ctx (addApolloState c p) s).1.cache = currentCache s) := by
  have h1 : getVal (addApolloState c p) APOLLO_STATE_PROP_NAME = none := by
    cases hp : getVal p "props" with
    | none => simpa [addApolloState, hp] using h
    | some pv =>
        cases htr : truthy pv with
        | false => simpa [addApolloState, hp, htr] using h
        | true =>
            simp only [addApolloState, hp, htr, if_true]
            rw [getVal_setVal]
            simpa [APOLLO_STATE_PROP_NAME] using h
  have h2 : useApollo ctx (addApolloState c p) s
      = initializeApollo ctx JValue.undef s := by
    simp [useApollo, h1]
  refine ⟨h1, h2, ?_⟩
  rw [h2]
  exact init_falsy_cache ctx _ s rfl

/-- Witness for the amended C10 at a concrete input: props `{props: {}}`
(no top-level reserved key), client cache `{y: 2}`. -/
theorem C10_witness :
    getVal [("props", JValue.obj [])] APOLLO_STATE_PROP_NAME = none
    ∧ ((useApollo .client (addApolloState ⟨0, [("y", JValue.num 2)]⟩
        [("props", JValue.obj [])]) ⟨none, 5⟩).1.cache
      = currentCache ⟨none, 5⟩) :=
  ⟨rfl, (C10_roundtrip_mismatch .client ⟨0, [("y", JValue.num 2)]⟩
      [("props", JValue.obj [])] ⟨none, 5⟩ rfl).2.2⟩
